import Mathlib

namespace NUtil

/-!
Shallow embedding of the call-coalescing debounce decorator
(createReplacementMethod in debounce.ts) and of the BackgroundProcessor
action queue (background-processor.ts) of the n-util library.

Asynchronous execution is modelled as a small-step event system: each
synchronous portion of the JavaScript code between two await points is one
atomic transition, and each await point is represented by a suspended
runner that an external event resumes.  Real time (the magnitude of the
settle delay and of the break interval) is abstracted away; only the order
of resumptions matters.
-/

/-- Phase of a suspended run-loop coroutine of the replacement method:
either awaiting the settle delay (await Delay.milliseconds) or awaiting the
target call (await currentCall()). -/
inductive RunnerPhase (α : Type) where
  | delaying : RunnerPhase α
  | executing : α → RunnerPhase α
deriving DecidableEq, Repr

/-- A suspended run loop of the replacement method: the id of the caller
whose invocation entered the while loop, and the await it is suspended at. -/
structure Runner (α : Type) where
  owner : Nat
  phase : RunnerPhase α
deriving DecidableEq, Repr

/-- State of one guarded method on one owner instance.  The type α is the
tuple of arguments of the wrapped method; scheduledCall holds the closure
captured by the latest call (represented by its arguments). -/
structure GuardState (α : Type) where
  hasDelay : Bool
  isActive : Bool
  scheduledCall : Option α
  runners : List (Runner α)
  executed : List α
  settled : List (Nat × Bool)
  nextId : Nat
deriving DecidableEq, Repr

/-- Synchronous prologue of the replacement method returned by
createReplacementMethod, invoked with arguments a.  It overwrites
scheduledCall, returns immediately (resolving the promise of caller id)
when a run is active, and otherwise enters the while loop: it marks the
guard active and suspends either at the settle delay (when a delay was
configured) or at the target call (capturing scheduledCall synchronously
when no delay was configured). -/
def callStep {α : Type} (s : GuardState α) (a : α) : GuardState α :=
  let id := s.nextId
  if s.isActive then
    { s with scheduledCall := some a, nextId := id + 1,
             settled := s.settled ++ [(id, true)] }
  else if s.hasDelay then
    { s with scheduledCall := some a, nextId := id + 1, isActive := true,
             runners := s.runners ++ [{ owner := id, phase := RunnerPhase.delaying }] }
  else
    { s with scheduledCall := none, nextId := id + 1, isActive := true,
             runners := s.runners ++ [{ owner := id, phase := RunnerPhase.executing a }],
             executed := s.executed ++ [a] }

/-- Resumption of a run loop suspended at the settle delay: it captures the
current scheduledCall, clears the slot, and suspends at the target call.
In every reachable state a delaying runner has a nonempty scheduledCall
(proved below), so the none branch is dead. -/
def delayStep {α : Type} (s : GuardState α) : GuardState α :=
  match s.runners with
  | { owner := id, phase := RunnerPhase.delaying } :: rest =>
    match s.scheduledCall with
    | some a =>
      { s with scheduledCall := none,
               runners := { owner := id, phase := RunnerPhase.executing a } :: rest,
               executed := s.executed ++ [a] }
    | none => s
  | _ => s

/-- Resumption of a run loop suspended at the target call, with the call
either resolving (ok = true) or rejecting (ok = false).  The finally block
clears the active flag in both cases.  On success the while condition is
re-checked synchronously: when a new scheduledCall arrived the loop marks
the guard active again and runs another iteration; otherwise the loop
exits and the initiating caller's promise resolves.  On failure the
exception propagates out of the while loop: the loop is not re-entered and
the initiating caller's promise rejects. -/
def execDoneStep {α : Type} (s : GuardState α) (ok : Bool) : GuardState α :=
  match s.runners with
  | { owner := id, phase := RunnerPhase.executing _ } :: rest =>
    if ok then
      match s.scheduledCall with
      | some a =>
        if s.hasDelay then
          { s with isActive := true,
                   runners := { owner := id, phase := RunnerPhase.delaying } :: rest }
        else
          { s with isActive := true, scheduledCall := none,
                   runners := { owner := id, phase := RunnerPhase.executing a } :: rest,
                   executed := s.executed ++ [a] }
      | none =>
        { s with isActive := false, runners := rest,
                 settled := s.settled ++ [(id, true)] }
    else
      { s with isActive := false, runners := rest,
               settled := s.settled ++ [(id, false)] }
  | _ => s

/-- Events that drive one guarded method: an external call with arguments,
the completion of the settle delay, and the settlement of the target call. -/
inductive GuardEvent (α : Type) where
  | call : α → GuardEvent α
  | delayDone : GuardEvent α
  | execDone : Bool → GuardEvent α
deriving DecidableEq, Repr

def guardStep {α : Type} (s : GuardState α) : GuardEvent α → GuardState α
  | GuardEvent.call a => callStep s a
  | GuardEvent.delayDone => delayStep s
  | GuardEvent.execDone ok => execDoneStep s ok

/-- State of the guard before the first call: both hidden properties are
absent (the active flag reads false, the scheduled call reads null). -/
def initGuard (α : Type) (hasDelay : Bool) : GuardState α :=
  { hasDelay := hasDelay, isActive := false, scheduledCall := none,
    runners := [], executed := [], settled := [], nextId := 0 }

def runGuard {α : Type} (s : GuardState α) (evs : List (GuardEvent α)) : GuardState α :=
  evs.foldl guardStep s

/-- A guard state is reachable when some event sequence produces it from
the initial state of one of the two configurations. -/
def GuardReachable {α : Type} (s : GuardState α) : Prop :=
  ∃ hasDelay : Bool, ∃ evs : List (GuardEvent α), runGuard (initGuard α hasDelay) evs = s

/-- Structural invariant of the guard: at most one run loop is ever
suspended, the active flag is set exactly while one is, and a runner
suspended at the settle delay always has a call scheduled. -/
def GuardInv {α : Type} (s : GuardState α) : Prop :=
  s.runners.length ≤ 1 ∧
  (s.isActive = true ↔ s.runners ≠ []) ∧
  (∀ r ∈ s.runners, r.phase = RunnerPhase.delaying → s.scheduledCall ≠ none)

theorem guardInv_init {α : Type} (hasDelay : Bool) : GuardInv (initGuard α hasDelay) := by
  simp [GuardInv, initGuard]

theorem guardInv_step {α : Type} (s : GuardState α) (ev : GuardEvent α)
    (h : GuardInv s) : GuardInv (guardStep s ev) := by
  obtain ⟨hlen, hiff, hdel⟩ := h
  cases ev with
  | call a =>
    simp only [guardStep, callStep]
    by_cases hact : s.isActive = true
    · simp only [hact, if_true]
      refine ⟨by simpa using hlen, by simpa using hiff.mp hact, ?_⟩
      intro r hr _
      simp
    · have hruns : s.runners = [] := by
        by_contra hne
        exact hact (hiff.mpr hne)
      simp only [hact]
      by_cases hd : s.hasDelay = true
      · simp [GuardInv, hd, hruns, eq_false_of_ne_true hact]
      · simp only [Bool.not_eq_true] at hact hd
        simp [GuardInv, hact, hd, hruns]
  | delayDone =>
    simp only [guardStep, delayStep]
    cases hr : s.runners with
    | nil => exact ⟨hlen, hiff, hdel⟩
    | cons r rest =>
      cases hp : r.phase with
      | delaying =>
        have hsc : s.scheduledCall ≠ none := hdel r (by simp [hr]) hp
        cases hsc2 : s.scheduledCall with
        | none => exact absurd hsc2 hsc
        | some a =>
          obtain ⟨id, phase⟩ := r
          simp only at hp
          subst hp
          simp only [hr, hsc2]
          refine ⟨by simpa [hr] using hlen, ?_, ?_⟩
          · constructor
            · intro _
              simp
            · intro _
              exact hiff.mpr (by simp [hr])
          · intro r' hr' hphase
            simp only [List.mem_cons] at hr'
            rcases hr' with h1 | h1
            · subst h1
              simp at hphase
            · have : rest = [] := by
                have := hlen
                rw [hr] at this
                simp at this
                exact this
              rw [this] at h1
              simp at h1
      | executing a =>
        obtain ⟨id, phase⟩ := r
        simp only at hp
        subst hp
        simp only [hr]
        exact ⟨hlen, hiff, hdel⟩
  | execDone ok =>
    simp only [guardStep, execDoneStep]
    cases hr : s.runners with
    | nil => exact ⟨hlen, hiff, hdel⟩
    | cons r rest =>
      have hrest : rest = [] := by
        have := hlen
        rw [hr] at this
        simp at this
        exact this
      subst hrest
      cases hp : r.phase with
      | delaying =>
        obtain ⟨id, phase⟩ := r
        simp only at hp
        subst hp
        simp only [hr]
        exact ⟨hlen, hiff, hdel⟩
      | executing a0 =>
        obtain ⟨id, phase⟩ := r
        simp only at hp
        subst hp
        simp only [hr]
        by_cases hok : ok = true
        · simp only [hok, if_true]
          cases hsc : s.scheduledCall with
          | some a =>
            by_cases hd : s.hasDelay = true
            · simp only [hd, if_true]
              refine ⟨by simp, by simp, ?_⟩
              intro r' hr' _
              simp only [List.mem_cons, List.not_mem_nil, or_false] at hr'
              subst hr'
              simp [hsc]
            · simp only [Bool.not_eq_true] at hd
              simp only [hd, Bool.false_eq_true, if_false]
              refine ⟨by simp, by simp, ?_⟩
              intro r' hr' hphase
              simp only [List.mem_cons, List.not_mem_nil, or_false] at hr'
              subst hr'
              simp at hphase
          | none =>
            refine ⟨by simp, by simp, by simp⟩
        · simp only [Bool.not_eq_true] at hok
          subst hok
          simp only [Bool.false_eq_true, if_false]
          refine ⟨by simp, by simp, by simp⟩

theorem guardInv_run {α : Type} (s : GuardState α) (evs : List (GuardEvent α))
    (h : GuardInv s) : GuardInv (runGuard s evs) := by
  induction evs generalizing s with
  | nil => exact h
  | cons ev rest ih => exact ih (guardStep s ev) (guardInv_step s ev h)

theorem guardInv_reachable {α : Type} (s : GuardState α) (h : GuardReachable s) :
    GuardInv s := by
  obtain ⟨hasDelay, evs, hrun⟩ := h
  rw [← hrun]
  exact guardInv_run _ evs (guardInv_init hasDelay)

/-- A sequence of calls arriving while the guard is active only overwrites
the scheduled call: the suspended runner, the execution trace and the
configuration are untouched, and the slot ends holding the arguments of
the last call of the window. -/
theorem runGuard_calls_active {α : Type} (cs : List α) (hne : cs ≠ [])
    (s : GuardState α) (h : s.isActive = true) :
    (runGuard s (cs.map GuardEvent.call)).isActive = true ∧
    (runGuard s (cs.map GuardEvent.call)).runners = s.runners ∧
    (runGuard s (cs.map GuardEvent.call)).executed = s.executed ∧
    (runGuard s (cs.map GuardEvent.call)).hasDelay = s.hasDelay ∧
    (runGuard s (cs.map GuardEvent.call)).scheduledCall = some (cs.getLast hne) := by
  induction cs generalizing s with
  | nil => exact absurd rfl hne
  | cons c cs ih =>
    have hstep : runGuard s ((c :: cs).map GuardEvent.call) =
        runGuard (callStep s c) (cs.map GuardEvent.call) := by
      simp [runGuard, guardStep]
    cases cs with
    | nil =>
      simp [runGuard, guardStep, callStep, h]
    | cons c2 cs2 =>
      have hact2 : (callStep s c).isActive = true := by
        simp [callStep, h]
      obtain ⟨k1, k2, k3, k4, k5⟩ := ih (by simp) (callStep s c) hact2
      rw [hstep]
      refine ⟨k1, ?_, ?_, ?_, ?_⟩
      · rw [k2]
        simp [callStep, h]
      · rw [k3]
        simp [callStep, h]
      · rw [k4]
        simp [callStep, h]
      · rw [k5]
        simp [List.getLast]

/-- Completing the current target call successfully while a new call is
scheduled runs exactly one more iteration of the while loop: the scheduled
arguments are captured and executed once, after which the loop terminates
with nothing scheduled.  The drive applies the autonomous resumptions
(settle delay, successful execution) with no further external calls. -/
def guardAuto {α : Type} (s : GuardState α) : GuardState α :=
  match s.runners with
  | { owner := _, phase := RunnerPhase.delaying } :: _ => delayStep s
  | { owner := _, phase := RunnerPhase.executing _ } :: _ => execDoneStep s true
  | [] => s

def guardDrive {α : Type} (s : GuardState α) : Nat → GuardState α
  | 0 => s
  | n + 1 => guardDrive (guardAuto s) n

theorem exec_done_with_pending {α : Type} (t : GuardState α) (id : Nat) (a0 lastArg : α)
    (h1 : t.isActive = true)
    (h2 : t.runners = [{ owner := id, phase := RunnerPhase.executing a0 }])
    (h5 : t.scheduledCall = some lastArg) :
    (guardDrive (execDoneStep t true) 3).executed = t.executed ++ [lastArg] ∧
    (guardDrive (execDoneStep t true) 3).runners = [] ∧
    (guardDrive (execDoneStep t true) 3).scheduledCall = none := by
  obtain ⟨thd, tact, tsc, trn, tex, tst, tni⟩ := t
  dsimp only at h1 h2 h5
  subst h1 h2 h5
  by_cases hd : thd = true
  · subst hd
    simp [guardDrive, guardAuto, execDoneStep, delayStep]
  · simp only [Bool.not_eq_true] at hd
    subst hd
    simp [guardDrive, guardAuto, execDoneStep, delayStep]

/-- C1: while a run of the wrapped method is executing, any sequence of
N >= 1 calls results, after the current run completes, in exactly one
additional execution, whose arguments are those of the last call of the
window; the intermediate arguments never enter the execution trace, and
the loop then terminates with nothing scheduled. -/
theorem guard_coalesces_last_call {α : Type} (s : GuardState α) (id : Nat) (a0 : α)
    (cs : List α) (hne : cs ≠ [])
    (hrun : s.runners = [{ owner := id, phase := RunnerPhase.executing a0 }])
    (hact : s.isActive = true) :
    (guardDrive (execDoneStep (runGuard s (cs.map GuardEvent.call)) true) 3).executed
        = s.executed ++ [cs.getLast hne] ∧
    (guardDrive (execDoneStep (runGuard s (cs.map GuardEvent.call)) true) 3).runners = [] ∧
    (guardDrive (execDoneStep (runGuard s (cs.map GuardEvent.call)) true) 3).scheduledCall
        = none := by
  obtain ⟨h1, h2, h3, h4, h5⟩ := runGuard_calls_active cs hne s hact
  obtain ⟨k1, k2, k3⟩ :=
    exec_done_with_pending (runGuard s (cs.map GuardEvent.call)) id a0 (cs.getLast hne)
      h1 (h2.trans hrun) h5
  exact ⟨by rw [k1, h3], k2, k3⟩

/-- C1 witness: with no configured delay, a call with argument 5 starts a
run; calls with arguments 1 and 2 arrive during it; after the run
completes, exactly the argument 2 is additionally executed. -/
theorem guard_coalesces_last_call_witness :
    (callStep (initGuard Nat false) 5).runners
        = [{ owner := 0, phase := RunnerPhase.executing 5 }] ∧
    (callStep (initGuard Nat false) 5).isActive = true ∧
    (guardDrive (execDoneStep
        (runGuard (callStep (initGuard Nat false) 5)
          ([1, 2].map GuardEvent.call)) true) 3).executed = [5, 2] :=
  have hrun : (callStep (initGuard Nat false) 5).runners
      = [{ owner := 0, phase := RunnerPhase.executing 5 }] := by decide
  have hact : (callStep (initGuard Nat false) 5).isActive = true := by decide
  ⟨hrun, hact, by
    have := (guard_coalesces_last_call (callStep (initGuard Nat false) 5) 0 5
      [1, 2] (by decide) hrun hact).1
    simpa using this⟩

/-- C2: at most one run loop of a guarded method is ever suspended, so at
most one execution of the wrapped method is in flight; a call arriving
while the guard is active leaves the runner and the execution trace
untouched and only replaces the scheduled call, while a call arriving when
the guard is inactive starts the run loop. -/
theorem guard_no_concurrent_execution {α : Type} (s : GuardState α) (a : α)
    (h : GuardReachable s) :
    s.runners.length ≤ 1 ∧
    (s.isActive = true →
      (callStep s a).runners = s.runners ∧
      (callStep s a).scheduledCall = some a ∧
      (callStep s a).executed = s.executed) ∧
    (s.isActive = false →
      (callStep s a).runners.length = 1 ∧ (callStep s a).isActive = true) := by
  obtain ⟨hlen, hiff, -⟩ := guardInv_reachable s h
  refine ⟨hlen, ?_, ?_⟩
  · intro hact
    refine ⟨?_, ?_, ?_⟩ <;> simp [callStep, hact]
  · intro hact
    have hruns : s.runners = [] := by
      by_contra hne
      rw [hact] at hiff
      exact absurd (hiff.mpr hne) (by simp)
    by_cases hd : s.hasDelay = true
    · constructor <;> simp [callStep, hact, hd, hruns]
    · simp only [Bool.not_eq_true] at hd
      constructor <;> simp [callStep, hact, hd, hruns]

/-- C2 witness: the state after one call on a delay-configured guard is
reachable and satisfies the single-runner bound, the replace-only behavior
of a call while active, and the start behavior of a call while inactive. -/
theorem guard_no_concurrent_execution_witness :
    GuardReachable (runGuard (initGuard Nat true) [GuardEvent.call 0]) ∧
    ((runGuard (initGuard Nat true) [GuardEvent.call 0]).runners.length ≤ 1 ∧
     ((runGuard (initGuard Nat true) [GuardEvent.call 0]).isActive = true →
       (callStep (runGuard (initGuard Nat true) [GuardEvent.call 0]) 7).runners
           = (runGuard (initGuard Nat true) [GuardEvent.call 0]).runners ∧
       (callStep (runGuard (initGuard Nat true) [GuardEvent.call 0]) 7).scheduledCall
           = some 7 ∧
       (callStep (runGuard (initGuard Nat true) [GuardEvent.call 0]) 7).executed
           = (runGuard (initGuard Nat true) [GuardEvent.call 0]).executed) ∧
     ((runGuard (initGuard Nat true) [GuardEvent.call 0]).isActive = false →
       (callStep (runGuard (initGuard Nat true) [GuardEvent.call 0]) 7).runners.length = 1 ∧
       (callStep (runGuard (initGuard Nat true) [GuardEvent.call 0]) 7).isActive = true)) :=
  have hreach : GuardReachable (runGuard (initGuard Nat true) [GuardEvent.call 0]) :=
    ⟨true, [GuardEvent.call 0], rfl⟩
  ⟨hreach, guard_no_concurrent_execution _ 7 hreach⟩

/-- C6 counterexample: with no configured delay, a call with argument 1
starts a run; a call with argument 2 arrives during it and is recorded as
the scheduled call; the run then fails.  The active flag is cleared, but
the run loop exits without re-checking the scheduled call: the state is
quiescent (the autonomous step is a fixpoint), argument 2 remains in the
slot and is never executed, contradicting the claim that a call recorded
during a failing run is still executed. -/
theorem guard_failure_pending_dropped_cex :
    (execDoneStep (callStep (callStep (initGuard Nat false) 1) 2) false).isActive = false ∧
    (execDoneStep (callStep (callStep (initGuard Nat false) 1) 2) false).scheduledCall
        = some 2 ∧
    (execDoneStep (callStep (callStep (initGuard Nat false) 1) 2) false).executed = [1] ∧
    (execDoneStep (callStep (callStep (initGuard Nat false) 1) 2) false).runners = [] ∧
    guardAuto (execDoneStep (callStep (callStep (initGuard Nat false) 1) 2) false)
        = execDoneStep (callStep (callStep (initGuard Nat false) 1) 2) false := by
  decide

/-- C6 amended: when the execution of the wrapped method fails, the
finally block still clears the active flag (it never remains stuck true),
but the exception aborts the while loop: the run loop exits without
executing the scheduled call recorded during the failing run, which stays
in the slot until a later call restarts the loop. -/
theorem guard_failure_clears_flag {α : Type} (s : GuardState α) (id : Nat) (a0 b : α)
    (hrun : s.runners = [{ owner := id, phase := RunnerPhase.executing a0 }]) :
    (execDoneStep s false).isActive = false ∧
    (execDoneStep s false).runners = [] ∧
    (execDoneStep s false).scheduledCall = s.scheduledCall ∧
    (execDoneStep s false).executed = s.executed ∧
    (callStep (execDoneStep s false) b).isActive = true := by
  obtain ⟨thd, tact, tsc, trn, tex, tst, tni⟩ := s
  dsimp only at hrun
  subst hrun
  refine ⟨by simp [execDoneStep], by simp [execDoneStep], by simp [execDoneStep],
    by simp [execDoneStep], ?_⟩
  by_cases hd : thd = true
  · subst hd
    simp [execDoneStep, callStep]
  · simp only [Bool.not_eq_true] at hd
    subst hd
    simp [execDoneStep, callStep]

/-- C6 amended witness: argument 5 starts a run on a guard with no delay;
the failing completion clears the flag, drops nothing from the slot, and a
later call with argument 7 reactivates the guard. -/
theorem guard_failure_clears_flag_witness :
    (callStep (initGuard Nat false) 5).runners
        = [{ owner := 0, phase := RunnerPhase.executing 5 }] ∧
    ((execDoneStep (callStep (initGuard Nat false) 5) false).isActive = false ∧
     (execDoneStep (callStep (initGuard Nat false) 5) false).runners = [] ∧
     (execDoneStep (callStep (initGuard Nat false) 5) false).scheduledCall
         = (callStep (initGuard Nat false) 5).scheduledCall ∧
     (execDoneStep (callStep (initGuard Nat false) 5) false).executed
         = (callStep (initGuard Nat false) 5).executed ∧
     (callStep (execDoneStep (callStep (initGuard Nat false) 5) false) 7).isActive = true) :=
  have hrun : (callStep (initGuard Nat false) 5).runners
      = [{ owner := 0, phase := RunnerPhase.executing 5 }] := by decide
  ⟨hrun, guard_failure_clears_flag (callStep (initGuard Nat false) 5) 0 5 7 hrun⟩

/-- C9: the caller whose call entered the run loop owns the promise of the
replacement method: a failing execution rejects exactly that promise,
while a normal loop exit resolves it; every caller arriving while the
guard is active has its promise resolved immediately at call time with no
failure signal. -/
theorem guard_promise_semantics {α : Type} (s : GuardState α) (a : α) (id : Nat) (a0 : α)
    (hrun : s.runners = [{ owner := id, phase := RunnerPhase.executing a0 }])
    (hact : s.isActive = true) :
    (callStep s a).settled = s.settled ++ [(s.nextId, true)] ∧
    (execDoneStep s false).settled = s.settled ++ [(id, false)] ∧
    (s.scheduledCall = none →
      (execDoneStep s true).settled = s.settled ++ [(id, true)]) := by
  refine ⟨by simp [callStep, hact], ?_, ?_⟩
  · obtain ⟨thd, tact, tsc, trn, tex, tst, tni⟩ := s
    dsimp only at hrun
    subst hrun
    simp [execDoneStep]
  · intro hsc
    obtain ⟨thd, tact, tsc, trn, tex, tst, tni⟩ := s
    dsimp only at hrun hsc
    subst hrun
    subst hsc
    simp [execDoneStep]

/-- C9 witness: a call with argument 5 starts the run loop as caller 0; a
call with argument 9 while active resolves immediately; a failing
completion rejects caller 0's promise and a successful completion with
nothing scheduled resolves it. -/
theorem guard_promise_semantics_witness :
    (callStep (initGuard Nat false) 5).runners
        = [{ owner := 0, phase := RunnerPhase.executing 5 }] ∧
    (callStep (initGuard Nat false) 5).isActive = true ∧
    ((callStep (callStep (initGuard Nat false) 5) 9).settled
        = (callStep (initGuard Nat false) 5).settled
            ++ [((callStep (initGuard Nat false) 5).nextId, true)] ∧
     (execDoneStep (callStep (initGuard Nat false) 5) false).settled
        = (callStep (initGuard Nat false) 5).settled ++ [(0, false)] ∧
     ((callStep (initGuard Nat false) 5).scheduledCall = none →
       (execDoneStep (callStep (initGuard Nat false) 5) true).settled
          = (callStep (initGuard Nat false) 5).settled ++ [(0, true)])) :=
  have hrun : (callStep (initGuard Nat false) 5).runners
      = [{ owner := 0, phase := RunnerPhase.executing 5 }] := by decide
  have hact : (callStep (initGuard Nat false) 5).isActive = true := by decide
  ⟨hrun, hact, guard_promise_semantics (callStep (initGuard Nat false) 5) 9 0 5 hrun hact⟩

/-!
Embedding of the BackgroundProcessor.  An enqueued action is represented
by its id together with its observable behavior: the action body either
returns a promise that resolves, returns a promise that rejects, or throws
synchronously; likewise its error handler.  Executing a record follows
Action.execute: the synchronous part of the call is one transition, and
the settlement of the action promise and of the handler promise are
external events.  Wall-clock time is abstracted: a timer that is armed may
fire at any point, whatever the configured break interval is.
-/

inductive ActionOutcome where
  | asyncOk : ActionOutcome
  | asyncFail : ActionOutcome
  | syncThrow : ActionOutcome
deriving DecidableEq, Repr

inductive HandlerOutcome where
  | asyncOk : HandlerOutcome
  | asyncFail : HandlerOutcome
  | syncThrow : HandlerOutcome
deriving DecidableEq, Repr

/-- One record of the queue: the Action object built by processAction from
the enqueued action and its (possibly defaulted) error handler. -/
structure ActionRec where
  id : Nat
  outcome : ActionOutcome
  handler : HandlerOutcome
deriving DecidableEq, Repr

/-- Continuation point of a record currently in the executing list: either
awaiting the action promise or awaiting the error-handler promise. -/
inductive ExecPhase where
  | running : ExecPhase
  | handling : ExecPhase
deriving DecidableEq, Repr

/-- An entry of the executing list: fromLoop records which
postExecuteCallback the record was started with (the background loop's
callback re-initiates processing, the dispose drain's does not). -/
structure ExecEntry where
  record : ActionRec
  phase : ExecPhase
  fromLoop : Bool
deriving DecidableEq, Repr

structure ProcState where
  pending : List ActionRec
  executing : List ExecEntry
  isDisposed : Bool
  timerArmed : Bool
  started : List Nat
  completed : List Nat
  handled : List Nat
  sink : List Nat
  enqueuedIds : List Nat
deriving DecidableEq, Repr

def execIds (s : ProcState) : List Nat := s.executing.map (fun e => e.record.id)

def queueLength (s : ProcState) : Nat := s.pending.length

/-- Removal of the first entry with the given id, modelling the removal of
the Action object from the executing array (removal is by object identity
in the source; ids stand for object identities here). -/
def removeFirstId (l : List ExecEntry) (id : Nat) : List ExecEntry :=
  match l with
  | [] => []
  | e :: rest => if e.record.id = id then rest else e :: removeFirstId rest id

def findEntry (l : List ExecEntry) (id : Nat) : Option ExecEntry :=
  match l with
  | [] => none
  | e :: rest => if e.record.id = id then some e else findEntry rest id

def setPhase (l : List ExecEntry) (id : Nat) (p : ExecPhase) : List ExecEntry :=
  match l with
  | [] => []
  | e :: rest =>
    if e.record.id = id then { e with phase := p } :: rest else e :: setPhase rest id p

/-- The postExecuteCallback: the record is removed from the executing list
and, for a record started by the background loop, processing is
re-initiated, which arms the timer again unless the processor is disposed. -/
def postExecute (s : ProcState) (e : ExecEntry) : ProcState :=
  let s1 : ProcState :=
    { s with executing := removeFirstId s.executing e.record.id,
             completed := s.completed ++ [e.record.id] }
  if e.fromLoop && !s1.isDisposed then { s1 with timerArmed := true } else s1

/-- Pushing a record onto the executing list and running the synchronous
part of Action.execute.  An action that throws synchronously invokes the
error handler synchronously; when the handler also throws synchronously
the failure goes to the diagnostic sink and the postExecuteCallback runs
before execute returns.  In every other case the record stays in the
executing list awaiting a promise. -/
def startRecord (s : ProcState) (r : ActionRec) (fromLoop : Bool) : ProcState :=
  let s1 : ProcState := { s with started := s.started ++ [r.id] }
  match r.outcome with
  | ActionOutcome.syncThrow =>
    match r.handler with
    | HandlerOutcome.syncThrow =>
      postExecute
        { s1 with executing := s1.executing ++ [{ record := r, phase := ExecPhase.handling,
                                                  fromLoop := fromLoop }],
                  handled := s1.handled ++ [r.id],
                  sink := s1.sink ++ [r.id] }
        { record := r, phase := ExecPhase.handling, fromLoop := fromLoop }
    | _ =>
      { s1 with executing := s1.executing ++ [{ record := r, phase := ExecPhase.handling,
                                                fromLoop := fromLoop }],
                handled := s1.handled ++ [r.id] }
  | _ =>
    { s1 with executing := s1.executing ++ [{ record := r, phase := ExecPhase.running,
                                              fromLoop := fromLoop }] }

/-- Settlement of the action promise of the record with the given id.  A
resolving action completes the record; a rejecting action invokes the
error handler: a synchronously throwing handler sends the failure to the
sink and completes the record, otherwise the record awaits the handler
promise. -/
def settleAction (s : ProcState) (id : Nat) : ProcState :=
  match findEntry s.executing id with
  | none => s
  | some e =>
    match e.phase with
    | ExecPhase.handling => s
    | ExecPhase.running =>
      match e.record.outcome with
      | ActionOutcome.syncThrow => s
      | ActionOutcome.asyncOk => postExecute s e
      | ActionOutcome.asyncFail =>
        match e.record.handler with
        | HandlerOutcome.syncThrow =>
          postExecute { s with handled := s.handled ++ [id], sink := s.sink ++ [id] } e
        | _ =>
          { s with handled := s.handled ++ [id],
                   executing := setPhase s.executing id ExecPhase.handling }

/-- Settlement of the error-handler promise of the record with the given
id: a rejecting handler sends the secondary failure to the sink; in both
cases the record completes. -/
def settleHandler (s : ProcState) (id : Nat) : ProcState :=
  match findEntry s.executing id with
  | none => s
  | some e =>
    match e.phase with
    | ExecPhase.running => s
    | ExecPhase.handling =>
      match e.record.handler with
      | HandlerOutcome.syncThrow => s
      | HandlerOutcome.asyncOk => postExecute s e
      | HandlerOutcome.asyncFail => postExecute { s with sink := s.sink ++ [id] } e

/-- Firing of the armed timeout set by initiateBackgroundProcessing: when
work is pending the head of the queue is shifted, pushed onto the
executing list and started with the re-initiating callback; otherwise
processing is re-initiated, which arms the timer again unless disposed. -/
def timerTick (s : ProcState) : ProcState :=
  if s.timerArmed then
    let s1 : ProcState := { s with timerArmed := false }
    match s1.pending with
    | [] => if s1.isDisposed then s1 else { s1 with timerArmed := true }
    | r :: rest => startRecord { s1 with pending := rest } r true
  else s

inductive ProcError where
  | objectDisposed : ProcError
deriving DecidableEq, Repr

/-- The processAction method: after disposal it throws an
ObjectDisposedException; otherwise it appends the new Action record to the
queue.  The ghost trace enqueuedIds records the commit order. -/
def processAction (s : ProcState) (r : ActionRec) : Except ProcError ProcState :=
  if s.isDisposed then Except.error ProcError.objectDisposed
  else Except.ok { s with pending := s.pending ++ [r],
                          enqueuedIds := s.enqueuedIds ++ [r.id] }

/-- The drain loop of dispose(false): every record of the given list is
shifted, pushed onto the executing list and started with the
non-re-initiating callback. -/
def drainList (s : ProcState) (l : List ActionRec) : ProcState :=
  match l with
  | [] => s
  | r :: rest => drainList (startRecord s r false) rest

/-- Synchronous prologue of dispose: a second call returns immediately;
otherwise the disposed flag is set, the outstanding timeout is cleared
and, unless killQueue is set, the whole pending queue is drained into the
executing list.  Disposal then resolves once the executing list is empty
(the polling wait), which the theorems state as a predicate on subsequent
states. -/
def disposePrologue (s : ProcState) (killQueue : Bool) : ProcState :=
  if s.isDisposed then s
  else
    let s1 : ProcState := { s with isDisposed := true, timerArmed := false }
    if killQueue then s1
    else drainList { s1 with pending := [] } s1.pending

inductive ProcEvent where
  | enqueue : ActionRec → ProcEvent
  | tick : ProcEvent
  | settleA : Nat → ProcEvent
  | settleH : Nat → ProcEvent
  | dispose : Bool → ProcEvent
deriving DecidableEq, Repr

def procStep (s : ProcState) : ProcEvent → ProcState
  | ProcEvent.enqueue r =>
    match processAction s r with
    | Except.ok s1 => s1
    | Except.error _ => s
  | ProcEvent.tick => timerTick s
  | ProcEvent.settleA id => settleAction s id
  | ProcEvent.settleH id => settleHandler s id
  | ProcEvent.dispose k => disposePrologue s k

/-- State right after the constructor: empty queue, timer armed by the
initial call to initiateBackgroundProcessing. -/
def initProc : ProcState :=
  { pending := [], executing := [], isDisposed := false, timerArmed := true,
    started := [], completed := [], handled := [], sink := [], enqueuedIds := [] }

def runProc (s : ProcState) (evs : List ProcEvent) : ProcState :=
  evs.foldl procStep s

def ProcReachable (s : ProcState) : Prop :=
  ∃ evs : List ProcEvent, runProc initProc evs = s

theorem mem_removeFirstId (l : List ExecEntry) (id t : Nat)
    (h : t ∈ (removeFirstId l id).map (fun e => e.record.id)) :
    t ∈ l.map (fun e => e.record.id) := by
  induction l with
  | nil => simp [removeFirstId] at h
  | cons e rest ih =>
    by_cases he : e.record.id = id
    · simp only [removeFirstId, he, if_true] at h
      simp [h]
    · simp only [removeFirstId, he, if_false, List.map_cons, List.mem_cons] at h
      rcases h with h | h
      · simp [h]
      · simp [ih h]

theorem mem_removeFirstId_of_mem (l : List ExecEntry) (id t : Nat)
    (h : t ∈ l.map (fun e => e.record.id)) :
    t ∈ (removeFirstId l id).map (fun e => e.record.id) ∨ t = id := by
  induction l with
  | nil => simp at h
  | cons e rest ih =>
    simp only [List.map_cons, List.mem_cons] at h
    by_cases he : e.record.id = id
    · simp only [removeFirstId, he, if_true]
      rcases h with h | h
      · right
        rw [h, he]
      · left
        exact h
    · simp only [removeFirstId, he, if_false, List.map_cons, List.mem_cons]
      rcases h with h | h
      · left
        left
        exact h
      · rcases ih h with h1 | h1
        · left
          right
          exact h1
        · right
          exact h1

theorem map_setPhase (l : List ExecEntry) (id : Nat) (p : ExecPhase) :
    (setPhase l id p).map (fun e => e.record.id) = l.map (fun e => e.record.id) := by
  induction l with
  | nil => simp [setPhase]
  | cons e rest ih =>
    by_cases he : e.record.id = id
    · simp [setPhase, he]
    · simp [setPhase, he, ih]

theorem findEntry_append_fresh (l : List ExecEntry) (e : ExecEntry)
    (h : e.record.id ∉ l.map (fun x => x.record.id)) :
    findEntry (l ++ [e]) e.record.id = some e := by
  induction l with
  | nil => simp [findEntry]
  | cons x rest ih =>
    simp only [List.map_cons, List.mem_cons, not_or] at h
    have hx : x.record.id ≠ e.record.id := fun hc => h.1 hc.symm
    simp only [List.cons_append, findEntry, hx, if_false]
    exact ih h.2

theorem removeFirstId_append_fresh (l : List ExecEntry) (e : ExecEntry)
    (h : e.record.id ∉ l.map (fun x => x.record.id)) :
    removeFirstId (l ++ [e]) e.record.id = l := by
  induction l with
  | nil => simp [removeFirstId]
  | cons x rest ih =>
    simp only [List.map_cons, List.mem_cons, not_or] at h
    have hx : x.record.id ≠ e.record.id := fun hc => h.1 hc.symm
    simp only [List.cons_append, removeFirstId, hx, if_false, List.append_eq]
    rw [ih h.2]

theorem setPhase_append_fresh (l : List ExecEntry) (e : ExecEntry) (p : ExecPhase)
    (h : e.record.id ∉ l.map (fun x => x.record.id)) :
    setPhase (l ++ [e]) e.record.id p = l ++ [{ e with phase := p }] := by
  induction l with
  | nil => simp [setPhase]
  | cons x rest ih =>
    simp only [List.map_cons, List.mem_cons, not_or] at h
    have hx : x.record.id ≠ e.record.id := fun hc => h.1 hc.symm
    simp only [List.cons_append, setPhase, hx, if_false, List.append_eq]
    rw [ih h.2]

theorem postExecute_fields (s : ProcState) (e : ExecEntry) :
    (postExecute s e).pending = s.pending ∧
    (postExecute s e).started = s.started ∧
    (postExecute s e).isDisposed = s.isDisposed ∧
    (postExecute s e).enqueuedIds = s.enqueuedIds ∧
    (postExecute s e).completed = s.completed ++ [e.record.id] ∧
    (postExecute s e).executing = removeFirstId s.executing e.record.id ∧
    (s.isDisposed = true → (postExecute s e).timerArmed = s.timerArmed) := by
  rcases Bool.eq_false_or_eq_true e.fromLoop with hfl | hfl <;>
    rcases Bool.eq_false_or_eq_true s.isDisposed with hd | hd <;>
    simp [postExecute, hfl, hd]

theorem startRecord_fields (s : ProcState) (r : ActionRec) (fl : Bool) :
    (startRecord s r fl).pending = s.pending ∧
    (startRecord s r fl).started = s.started ++ [r.id] ∧
    (startRecord s r fl).isDisposed = s.isDisposed ∧
    (startRecord s r fl).enqueuedIds = s.enqueuedIds ∧
    (fl = false → (startRecord s r fl).timerArmed = s.timerArmed) := by
  rcases Bool.eq_false_or_eq_true fl with hfl | hfl <;>
    rcases Bool.eq_false_or_eq_true s.isDisposed with hd | hd <;>
    cases houtcome : r.outcome <;> cases hhandler : r.handler <;>
    simp [startRecord, postExecute, houtcome, hhandler, hfl, hd]

theorem settleAction_fields (s : ProcState) (id : Nat) :
    (settleAction s id).pending = s.pending ∧
    (settleAction s id).started = s.started ∧
    (settleAction s id).isDisposed = s.isDisposed ∧
    (settleAction s id).enqueuedIds = s.enqueuedIds ∧
    (s.isDisposed = true → (settleAction s id).timerArmed = s.timerArmed) := by
  rcases hfe : findEntry s.executing id with - | e
  · simp [settleAction, hfe]
  · cases hp : e.phase <;> cases ho : e.record.outcome <;>
      cases hh : e.record.handler <;>
      rcases Bool.eq_false_or_eq_true e.fromLoop with hfl | hfl <;>
      rcases Bool.eq_false_or_eq_true s.isDisposed with hd | hd <;>
      simp [settleAction, hfe, hp, ho, hh, postExecute, hfl, hd]

theorem settleHandler_fields (s : ProcState) (id : Nat) :
    (settleHandler s id).pending = s.pending ∧
    (settleHandler s id).started = s.started ∧
    (settleHandler s id).isDisposed = s.isDisposed ∧
    (settleHandler s id).enqueuedIds = s.enqueuedIds ∧
    (s.isDisposed = true → (settleHandler s id).timerArmed = s.timerArmed) := by
  rcases hfe : findEntry s.executing id with - | e
  · simp [settleHandler, hfe]
  · cases hp : e.phase <;> cases hh : e.record.handler <;>
      rcases Bool.eq_false_or_eq_true e.fromLoop with hfl | hfl <;>
      rcases Bool.eq_false_or_eq_true s.isDisposed with hd | hd <;>
      simp [settleHandler, hfe, hp, hh, postExecute, hfl, hd]

theorem drainList_fields (l : List ActionRec) (s : ProcState) :
    (drainList s l).pending = s.pending ∧
    (drainList s l).started = s.started ++ l.map (fun r => r.id) ∧
    (drainList s l).isDisposed = s.isDisposed ∧
    (drainList s l).enqueuedIds = s.enqueuedIds ∧
    (drainList s l).timerArmed = s.timerArmed := by
  induction l generalizing s with
  | nil => simp [drainList]
  | cons r rest ih =>
    obtain ⟨g1, g2, g3, g4, g5⟩ := ih (startRecord s r false)
    obtain ⟨f1, f2, f3, f4, f5⟩ := startRecord_fields s r false
    simp only [drainList]
    refine ⟨g1.trans f1, ?_, g3.trans f3, g4.trans f4, g5.trans (f5 rfl)⟩
    rw [g2, f2]
    simp

/-- Ghost invariant behind FIFO start order: the trace of execution starts
followed by the ids still pending equals the enqueue-order trace. -/
def FifoInv (s : ProcState) : Prop :=
  s.started ++ s.pending.map (fun r => r.id) = s.enqueuedIds

theorem fifoInv_init : FifoInv initProc := by
  simp [FifoInv, initProc]

theorem fifoInv_step (s : ProcState) (ev : ProcEvent) (h : FifoInv s) :
    FifoInv (procStep s ev) := by
  unfold FifoInv at h ⊢
  cases ev with
  | enqueue r =>
    simp only [procStep, processAction]
    by_cases hd : s.isDisposed = true
    · simp [hd, h]
    · simp only [Bool.not_eq_true] at hd
      simp only [hd, Bool.false_eq_true, if_false]
      simp only [List.map_append, List.map_cons, List.map_nil]
      rw [← h]
      simp
  | tick =>
    simp only [procStep, timerTick]
    by_cases ha : s.timerArmed = true
    · simp only [ha, if_true]
      cases hp : s.pending with
      | nil =>
        have h0 : s.started = s.enqueuedIds := by
          rw [hp] at h
          simpa using h
        by_cases hd : s.isDisposed = true <;> simp [hd, hp, h0]
      | cons r rest =>
        simp only
        obtain ⟨f1, f2, -, f4, -⟩ :=
          startRecord_fields { s with timerArmed := false, pending := rest } r true
        rw [f1, f2, f4]
        simp only
        rw [← h, hp]
        simp
    · simp only [Bool.not_eq_true] at ha
      simp [ha, h]
  | settleA id =>
    obtain ⟨f1, f2, -, f4, -⟩ := settleAction_fields s id
    simp only [procStep]
    rw [f1, f2, f4]
    exact h
  | settleH id =>
    obtain ⟨f1, f2, -, f4, -⟩ := settleHandler_fields s id
    simp only [procStep]
    rw [f1, f2, f4]
    exact h
  | dispose k =>
    simp only [procStep, disposePrologue]
    by_cases hd : s.isDisposed = true
    · simp [hd, h]
    · simp only [Bool.not_eq_true] at hd
      simp only [hd, Bool.false_eq_true, if_false]
      by_cases hk : k = true
      · simp [hk, h]
      · simp only [Bool.not_eq_true] at hk
        simp only [hk, Bool.false_eq_true, if_false]
        obtain ⟨g1, g2, -, g4, -⟩ :=
          drainList_fields s.pending
            { s with isDisposed := true, timerArmed := false, pending := [] }
        rw [g1, g2, g4]
        simpa using h

theorem fifoInv_run (s : ProcState) (evs : List ProcEvent) (h : FifoInv s) :
    FifoInv (runProc s evs) := by
  induction evs generalizing s with
  | nil => exact h
  | cons ev rest ih => exact ih (procStep s ev) (fifoInv_step s ev h)

/-- C4: actions begin execution in exactly the order they were enqueued.
In every reachable processor state the trace of execution starts followed
by the ids still pending equals the enqueue-order trace; in particular the
start trace is a prefix of the enqueue trace, whatever the durations of
the individual actions (their settlements are independent events). -/
theorem fifo_start_order (s : ProcState) (h : ProcReachable s) :
    s.started ++ s.pending.map (fun r => r.id) = s.enqueuedIds ∧
    ∃ t : List Nat, s.started ++ t = s.enqueuedIds := by
  obtain ⟨evs, hrun⟩ := h
  have hinv : FifoInv s := hrun ▸ fifoInv_run initProc evs fifoInv_init
  have hinv2 : s.started ++ s.pending.map (fun r => r.id) = s.enqueuedIds := hinv
  exact ⟨hinv2, ⟨s.pending.map (fun r => r.id), hinv2⟩⟩

def c4State : ProcState :=
  runProc initProc
    [ProcEvent.enqueue { id := 1, outcome := ActionOutcome.asyncOk,
                         handler := HandlerOutcome.asyncOk },
     ProcEvent.enqueue { id := 2, outcome := ActionOutcome.asyncFail,
                         handler := HandlerOutcome.asyncOk },
     ProcEvent.enqueue { id := 3, outcome := ActionOutcome.asyncOk,
                         handler := HandlerOutcome.asyncOk },
     ProcEvent.tick]

/-- C4 witness: three enqueued actions, one tick: action 1 has started,
actions 2 and 3 are still pending, and the start trace plus the pending
ids is the enqueue order 1, 2, 3. -/
theorem fifo_start_order_witness :
    ProcReachable c4State ∧
    (c4State.started ++ c4State.pending.map (fun r => r.id) = c4State.enqueuedIds ∧
     ∃ t : List Nat, c4State.started ++ t = c4State.enqueuedIds) ∧
    c4State.started = [1] ∧ c4State.enqueuedIds = [1, 2, 3] :=
  have hreach : ProcReachable c4State := ⟨_, rfl⟩
  ⟨hreach, fifo_start_order c4State hreach, by decide, by decide⟩

theorem procStep_disposed_frozen (s : ProcState) (ev : ProcEvent)
    (h1 : s.isDisposed = true) (h2 : s.timerArmed = false) :
    (procStep s ev).pending = s.pending ∧ (procStep s ev).started = s.started ∧
    (procStep s ev).isDisposed = true ∧ (procStep s ev).timerArmed = false := by
  cases ev with
  | enqueue r => simp [procStep, processAction, h1, h2]
  | tick => simp [procStep, timerTick, h1, h2]
  | settleA id =>
    obtain ⟨f1, f2, f3, -, f5⟩ := settleAction_fields s id
    exact ⟨f1, f2, f3.trans h1, (f5 h1).trans h2⟩
  | settleH id =>
    obtain ⟨f1, f2, f3, -, f5⟩ := settleHandler_fields s id
    exact ⟨f1, f2, f3.trans h1, (f5 h1).trans h2⟩
  | dispose k => simp [procStep, disposePrologue, h1, h2]

/-- Once the processor is disposed and its timeout cleared, no later event
ever starts an action, changes the pending queue, or re-arms the timer. -/
theorem frozen_after_dispose (evs : List ProcEvent) (s : ProcState)
    (h1 : s.isDisposed = true) (h2 : s.timerArmed = false) :
    (runProc s evs).pending = s.pending ∧ (runProc s evs).started = s.started ∧
    (runProc s evs).isDisposed = true ∧ (runProc s evs).timerArmed = false := by
  induction evs generalizing s with
  | nil => exact ⟨rfl, rfl, h1, h2⟩
  | cons ev rest ih =>
    obtain ⟨f1, f2, f3, f4⟩ := procStep_disposed_frozen s ev h1 h2
    obtain ⟨g1, g2, g3, g4⟩ := ih (procStep s ev) f3 f4
    exact ⟨g1.trans f1, g2.trans f2, g3, g4⟩

theorem disposePrologue_flags (s : ProcState) (k : Bool) (hnd : s.isDisposed = false) :
    (disposePrologue s k).isDisposed = true ∧
    (disposePrologue s k).timerArmed = false := by
  simp only [disposePrologue, hnd, Bool.false_eq_true, if_false]
  by_cases hk : k = true
  · simp [hk]
  · simp only [Bool.not_eq_true] at hk
    simp only [hk, Bool.false_eq_true, if_false]
    obtain ⟨-, -, g3, -, g5⟩ :=
      drainList_fields s.pending
        { s with isDisposed := true, timerArmed := false, pending := [] }
    exact ⟨g3, g5⟩

/-- C7: once dispose has run (with either killQueue value), every later
call to processAction fails synchronously with the disposed-state error
and, as an event, leaves the state (in particular the pending queue)
unchanged. -/
theorem enqueue_after_dispose_fails (s : ProcState) (k : Bool) (r : ActionRec)
    (evs : List ProcEvent) (hnd : s.isDisposed = false) :
    processAction (runProc (disposePrologue s k) evs) r
        = Except.error ProcError.objectDisposed ∧
    procStep (runProc (disposePrologue s k) evs) (ProcEvent.enqueue r)
        = runProc (disposePrologue s k) evs := by
  obtain ⟨d1, d2⟩ := disposePrologue_flags s k hnd
  obtain ⟨-, -, f3, -⟩ := frozen_after_dispose evs (disposePrologue s k) d1 d2
  constructor
  · simp [processAction, f3]
  · simp [procStep, processAction, f3]

def c7State : ProcState :=
  runProc initProc
    [ProcEvent.enqueue { id := 1, outcome := ActionOutcome.asyncOk,
                         handler := HandlerOutcome.asyncOk }]

/-- C7 witness: after disposing a processor holding one pending action
with killQueue = true and no intervening events, enqueueing fails with the
disposed-state error and leaves the state unchanged. -/
theorem enqueue_after_dispose_fails_witness :
    c7State.isDisposed = false ∧
    (processAction (runProc (disposePrologue c7State true) [])
        { id := 2, outcome := ActionOutcome.asyncOk, handler := HandlerOutcome.asyncOk }
        = Except.error ProcError.objectDisposed ∧
     procStep (runProc (disposePrologue c7State true) [])
        (ProcEvent.enqueue { id := 2, outcome := ActionOutcome.asyncOk,
                             handler := HandlerOutcome.asyncOk })
        = runProc (disposePrologue c7State true) []) :=
  have hnd : c7State.isDisposed = false := by decide
  ⟨hnd, enqueue_after_dispose_fails c7State true
    { id := 2, outcome := ActionOutcome.asyncOk, handler := HandlerOutcome.asyncOk }
    [] hnd⟩

/-- C10: disposing with killQueue = true abandons the pending records in
place: the pending queue and hence queueLength are unchanged by disposal
and by every later event, and none of the abandoned records is ever
started; disposing with killQueue = false leaves the pending queue empty. -/
theorem dispose_kill_preserves_queue (s : ProcState) (evs : List ProcEvent)
    (hnd : s.isDisposed = false) :
    (disposePrologue s true).pending = s.pending ∧
    queueLength (disposePrologue s true) = queueLength s ∧
    (disposePrologue s true).started = s.started ∧
    (runProc (disposePrologue s true) evs).pending = s.pending ∧
    (runProc (disposePrologue s true) evs).started = s.started ∧
    (disposePrologue s false).pending = [] := by
  have hkill : disposePrologue s true = { s with isDisposed := true, timerArmed := false } := by
    simp [disposePrologue, hnd]
  obtain ⟨d1, d2⟩ := disposePrologue_flags s true hnd
  obtain ⟨g1, g2, -, -⟩ := frozen_after_dispose evs (disposePrologue s true) d1 d2
  refine ⟨by rw [hkill], by rw [queueLength, queueLength, hkill], by rw [hkill],
    by rw [g1, hkill], by rw [g2, hkill], ?_⟩
  simp only [disposePrologue, hnd, Bool.false_eq_true, if_false]
  obtain ⟨f1, -, -, -, -⟩ :=
    drainList_fields s.pending
      { s with isDisposed := true, timerArmed := false, pending := [] }
  exact f1

def c10State : ProcState :=
  runProc initProc
    [ProcEvent.enqueue { id := 1, outcome := ActionOutcome.asyncOk,
                         handler := HandlerOutcome.asyncOk },
     ProcEvent.enqueue { id := 2, outcome := ActionOutcome.asyncOk,
                         handler := HandlerOutcome.asyncOk }]

/-- C10 witness: a processor with two pending actions, disposed with
killQueue = true and then receiving a tick and a settlement event, still
holds exactly the two abandoned pending records and has started nothing;
disposing instead with killQueue = false empties the pending queue. -/
theorem dispose_kill_preserves_queue_witness :
    c10State.isDisposed = false ∧
    ((disposePrologue c10State true).pending = c10State.pending ∧
     queueLength (disposePrologue c10State true) = queueLength c10State ∧
     (disposePrologue c10State true).started = c10State.started ∧
     (runProc (disposePrologue c10State true) [ProcEvent.tick, ProcEvent.settleA 1]).pending
        = c10State.pending ∧
     (runProc (disposePrologue c10State true) [ProcEvent.tick, ProcEvent.settleA 1]).started
        = c10State.started ∧
     (disposePrologue c10State false).pending = []) ∧
    queueLength c10State = 2 :=
  have hnd : c10State.isDisposed = false := by decide
  ⟨hnd, dispose_kill_preserves_queue c10State [ProcEvent.tick, ProcEvent.settleA 1] hnd,
    by decide⟩

theorem findEntry_eq_none (l : List ExecEntry) (id : Nat)
    (h : id ∉ l.map (fun x => x.record.id)) : findEntry l id = none := by
  induction l with
  | nil => rfl
  | cons x rest ih =>
    simp only [List.map_cons, List.mem_cons, not_or] at h
    have hx : x.record.id ≠ id := fun hc => h.1 hc.symm
    simp [findEntry, hx, ih h.2]

theorem postExecute_completes (s : ProcState) (e : ExecEntry) (t : Nat)
    (h : t ∈ s.completed ∨ t ∈ execIds s) :
    t ∈ (postExecute s e).completed ∨ t ∈ execIds (postExecute s e) := by
  obtain ⟨-, -, -, -, f5, f6, -⟩ := postExecute_fields s e
  rw [f5]
  have hexec : execIds (postExecute s e) = (removeFirstId s.executing e.record.id).map
      (fun x => x.record.id) := by
    rw [execIds, f6]
  rw [hexec]
  rcases h with h | h
  · left
    simp [h]
  · rcases mem_removeFirstId_of_mem s.executing e.record.id t h with h1 | h1
    · right
      exact h1
    · left
      simp [h1]

theorem startRecord_completes (s : ProcState) (r : ActionRec) (fl : Bool) (t : Nat)
    (h : t ∈ s.completed ∨ t ∈ execIds s) :
    t ∈ (startRecord s r fl).completed ∨ t ∈ execIds (startRecord s r fl) := by
  have hstep : ∀ p : ExecPhase, t ∈ s.completed ∨
      t ∈ (s.executing ++ [({ record := r, phase := p, fromLoop := fl } : ExecEntry)]).map
        (fun x => x.record.id) := by
    intro p
    rcases h with h | h
    · left
      exact h
    · right
      rw [List.map_append]
      exact List.mem_append_left _ h
  cases ho : r.outcome <;> cases hh : r.handler <;>
      simp only [startRecord, ho, hh] <;>
      first
        | exact hstep _
        | (apply postExecute_completes
           exact hstep _)

theorem settleAction_completes (s : ProcState) (id t : Nat)
    (h : t ∈ s.completed ∨ t ∈ execIds s) :
    t ∈ (settleAction s id).completed ∨ t ∈ execIds (settleAction s id) := by
  rcases hfe : findEntry s.executing id with - | e
  · simp only [settleAction, hfe]
    exact h
  · cases hp : e.phase <;> cases ho : e.record.outcome <;>
      cases hh : e.record.handler <;>
      simp only [settleAction, hfe, hp, ho, hh] <;>
      first
        | exact h
        | (apply postExecute_completes
           exact h)
        | (rcases h with h2 | h2
           · exact Or.inl h2
           · refine Or.inr ?_
             show t ∈ (setPhase s.executing id ExecPhase.handling).map (fun x => x.record.id)
             rw [map_setPhase]
             exact h2)

theorem settleHandler_completes (s : ProcState) (id t : Nat)
    (h : t ∈ s.completed ∨ t ∈ execIds s) :
    t ∈ (settleHandler s id).completed ∨ t ∈ execIds (settleHandler s id) := by
  rcases hfe : findEntry s.executing id with - | e
  · simp only [settleHandler, hfe]
    exact h
  · cases hp : e.phase <;> cases hh : e.record.handler <;>
      simp only [settleHandler, hfe, hp, hh] <;>
      first
        | exact h
        | (apply postExecute_completes
           exact h)

theorem drainList_completes (l : List ActionRec) (s : ProcState) (t : Nat)
    (h : t ∈ s.completed ∨ t ∈ execIds s) :
    t ∈ (drainList s l).completed ∨ t ∈ execIds (drainList s l) := by
  induction l generalizing s with
  | nil => exact h
  | cons r rest ih => exact ih _ (startRecord_completes s r false t h)

theorem startRecord_self (s : ProcState) (r : ActionRec) (fl : Bool) :
    r.id ∈ (startRecord s r fl).completed ∨ r.id ∈ execIds (startRecord s r fl) := by
  rcases Bool.eq_false_or_eq_true fl with hfl | hfl <;>
    rcases Bool.eq_false_or_eq_true s.isDisposed with hd | hd <;>
    cases ho : r.outcome <;> cases hh : r.handler <;>
    simp [startRecord, ho, hh, execIds, postExecute, hfl, hd]

theorem drainList_establishes (l : List ActionRec) (s : ProcState) (t : Nat)
    (ht : t ∈ l.map (fun r => r.id)) :
    t ∈ (drainList s l).completed ∨ t ∈ execIds (drainList s l) := by
  induction l generalizing s with
  | nil => simp at ht
  | cons r rest ih =>
    simp only [List.map_cons, List.mem_cons] at ht
    rcases ht with ht | ht
    · subst ht
      exact drainList_completes rest _ r.id (startRecord_self s r false)
    · exact ih _ ht

theorem procStep_completes (s : ProcState) (ev : ProcEvent) (t : Nat)
    (h : t ∈ s.completed ∨ t ∈ execIds s) :
    t ∈ (procStep s ev).completed ∨ t ∈ execIds (procStep s ev) := by
  cases ev with
  | enqueue r =>
    simp only [procStep, processAction]
    by_cases hd : s.isDisposed = true
    · simp only [hd, if_true]
      exact h
    · simp only [Bool.not_eq_true] at hd
      simp only [hd, Bool.false_eq_true, if_false]
      exact h
  | tick =>
    simp only [procStep, timerTick]
    by_cases ha : s.timerArmed = true
    · simp only [ha, if_true]
      cases hp : s.pending with
      | nil =>
        by_cases hd : s.isDisposed = true
        · simp only [hd, if_true]
          exact h
        · simp only [Bool.not_eq_true] at hd
          simp only [hd, Bool.false_eq_true, if_false]
          exact h
      | cons r rest =>
        simp only
        exact startRecord_completes _ r true t h
    · simp only [Bool.not_eq_true] at ha
      simp only [ha, Bool.false_eq_true, if_false]
      exact h
  | settleA id => exact settleAction_completes s id t h
  | settleH id => exact settleHandler_completes s id t h
  | dispose k =>
    simp only [procStep, disposePrologue]
    by_cases hd : s.isDisposed = true
    · simp only [hd, if_true]
      exact h
    · simp only [Bool.not_eq_true] at hd
      simp only [hd, Bool.false_eq_true, if_false]
      by_cases hk : k = true
      · simp only [hk, if_true]
        exact h
      · simp only [Bool.not_eq_true] at hk
        simp only [hk, Bool.false_eq_true, if_false]
        exact drainList_completes _ _ t h

theorem runProc_completes (evs : List ProcEvent) (s : ProcState) (t : Nat)
    (h : t ∈ s.completed ∨ t ∈ execIds s) :
    t ∈ (runProc s evs).completed ∨ t ∈ execIds (runProc s evs) := by
  induction evs generalizing s with
  | nil => exact h
  | cons ev rest ih => exact ih (procStep s ev) (procStep_completes s ev t h)

/-- C3: disposing with killQueue = false starts every record that was
pending at the moment of the call (in queue order) and empties the pending
queue; disposal resolves only once the executing list is empty, and
whenever that holds, every action that was pending or executing at the
moment of the call has completed.  Disposing with killQueue = true never
starts an action that was still pending. -/
theorem dispose_drain_semantics (s : ProcState) (hnd : s.isDisposed = false) :
    (disposePrologue s false).started = s.started ++ s.pending.map (fun r => r.id) ∧
    (disposePrologue s false).pending = [] ∧
    (∀ evs : List ProcEvent, ∀ t : Nat,
      (runProc (disposePrologue s false) evs).executing = [] →
      t ∈ s.pending.map (fun r => r.id) ∨ t ∈ execIds s →
      t ∈ (runProc (disposePrologue s false) evs).completed) ∧
    (∀ evs : List ProcEvent, (runProc (disposePrologue s true) evs).started = s.started) := by
  have hdef : disposePrologue s false =
      drainList { s with isDisposed := true, timerArmed := false, pending := [] }
        s.pending := by
    simp [disposePrologue, hnd]
  obtain ⟨g1, g2, -, -, -⟩ :=
    drainList_fields s.pending
      { s with isDisposed := true, timerArmed := false, pending := [] }
  refine ⟨?_, ?_, ?_, ?_⟩
  · rw [hdef, g2]
  · rw [hdef, g1]
  · intro evs t hempty ht
    have hbase : t ∈ (disposePrologue s false).completed ∨
        t ∈ execIds (disposePrologue s false) := by
      rw [hdef]
      rcases ht with ht | ht
      · exact drainList_establishes s.pending _ t ht
      · exact drainList_completes s.pending _ t (Or.inr ht)
    rcases runProc_completes evs _ t hbase with h1 | h1
    · exact h1
    · rw [execIds, hempty] at h1
      simp at h1
  · intro evs
    obtain ⟨d1, d2⟩ := disposePrologue_flags s true hnd
    obtain ⟨-, g5, -, -⟩ := frozen_after_dispose evs _ d1 d2
    rw [g5]
    have hkill : (disposePrologue s true).started = s.started := by
      simp [disposePrologue, hnd]
    rw [hkill]

def c3State : ProcState :=
  runProc initProc
    [ProcEvent.enqueue { id := 1, outcome := ActionOutcome.asyncOk,
                         handler := HandlerOutcome.asyncOk },
     ProcEvent.enqueue { id := 2, outcome := ActionOutcome.syncThrow,
                         handler := HandlerOutcome.syncThrow }]

/-- C3 witness: a live processor holding two pending actions; disposing
with killQueue = false starts both in order and empties the pending queue,
every state reached afterwards whose executing list is empty has both
completed, and disposing with killQueue = true starts neither. -/
theorem dispose_drain_semantics_witness :
    c3State.isDisposed = false ∧
    ((disposePrologue c3State false).started
        = c3State.started ++ c3State.pending.map (fun r => r.id) ∧
     (disposePrologue c3State false).pending = [] ∧
     (∀ evs : List ProcEvent, ∀ t : Nat,
       (runProc (disposePrologue c3State false) evs).executing = [] →
       t ∈ c3State.pending.map (fun r => r.id) ∨ t ∈ execIds c3State →
       t ∈ (runProc (disposePrologue c3State false) evs).completed) ∧
     (∀ evs : List ProcEvent,
       (runProc (disposePrologue c3State true) evs).started = c3State.started)) :=
  have hnd : c3State.isDisposed = false := by decide
  ⟨hnd, dispose_drain_semantics c3State hnd⟩

def actionFails : ActionOutcome → Bool
  | ActionOutcome.asyncOk => false
  | ActionOutcome.asyncFail => true
  | ActionOutcome.syncThrow => true

def handlerFails : HandlerOutcome → Bool
  | HandlerOutcome.asyncOk => false
  | HandlerOutcome.asyncFail => true
  | HandlerOutcome.syncThrow => true

/-- Full lifecycle of one record: the synchronous start of Action.execute
followed by the settlement of the action promise and of the handler
promise; settlements that do not apply to the record are identity steps. -/
def runRecord (s : ProcState) (r : ActionRec) (fl : Bool) : ProcState :=
  settleHandler (settleAction (startRecord s r fl) r.id) r.id

/-- C5: whatever the failure mode of an enqueued action (synchronous
throw, rejected promise) and of its error handler (throw, rejection), the
record's full lifecycle removes it from the executing list, marks it
completed, invokes the handler exactly when the action failed, reports the
secondary failure to the diagnostic sink exactly when the handler also
failed, never disturbs the pending queue, and re-arms the background loop
when the record was started by it. -/
theorem action_failure_isolation (s : ProcState) (r : ActionRec) (fl : Bool)
    (hfresh : r.id ∉ execIds s) (hnd : s.isDisposed = false) :
    (runRecord s r fl).pending = s.pending ∧
    (runRecord s r fl).executing = s.executing ∧
    (runRecord s r fl).started = s.started ++ [r.id] ∧
    (runRecord s r fl).completed = s.completed ++ [r.id] ∧
    (runRecord s r fl).handled
        = s.handled ++ (if actionFails r.outcome then [r.id] else []) ∧
    (runRecord s r fl).sink
        = s.sink ++ (if actionFails r.outcome && handlerFails r.handler
                     then [r.id] else []) ∧
    (runRecord s r fl).isDisposed = false ∧
    (fl = true → (runRecord s r fl).timerArmed = true) := by
  have hxe : r.id ∉ s.executing.map (fun x => x.record.id) := hfresh
  have hnone : findEntry s.executing r.id = none := findEntry_eq_none s.executing r.id hxe
  have hfeR : findEntry
      (s.executing ++ [({ record := r, phase := ExecPhase.running, fromLoop := fl } : ExecEntry)])
      r.id = some { record := r, phase := ExecPhase.running, fromLoop := fl } :=
    findEntry_append_fresh s.executing _ hxe
  have hfeH : findEntry
      (s.executing ++ [({ record := r, phase := ExecPhase.handling, fromLoop := fl } : ExecEntry)])
      r.id = some { record := r, phase := ExecPhase.handling, fromLoop := fl } :=
    findEntry_append_fresh s.executing _ hxe
  have hrmR : removeFirstId
      (s.executing ++ [({ record := r, phase := ExecPhase.running, fromLoop := fl } : ExecEntry)])
      r.id = s.executing :=
    removeFirstId_append_fresh s.executing _ hxe
  have hrmH : removeFirstId
      (s.executing ++ [({ record := r, phase := ExecPhase.handling, fromLoop := fl } : ExecEntry)])
      r.id = s.executing :=
    removeFirstId_append_fresh s.executing _ hxe
  have hsetH : setPhase
      (s.executing ++ [({ record := r, phase := ExecPhase.running, fromLoop := fl } : ExecEntry)])
      r.id ExecPhase.handling
      = s.executing ++ [({ record := r, phase := ExecPhase.handling, fromLoop := fl } : ExecEntry)] :=
    setPhase_append_fresh s.executing _ ExecPhase.handling hxe
  rcases Bool.eq_false_or_eq_true fl with hfl | hfl <;>
    subst hfl <;>
    cases ho : r.outcome <;> cases hh : r.handler <;>
    simp [runRecord, startRecord, settleAction, settleHandler, postExecute,
          actionFails, handlerFails, ho, hh, hnd,
          hnone, hfeR, hfeH, hrmR, hrmH, hsetH]

def c5State : ProcState := timerTick (procStep initProc
    (ProcEvent.enqueue { id := 9, outcome := ActionOutcome.asyncOk,
                         handler := HandlerOutcome.asyncOk }))

/-- C5 witness: on a live processor already executing record 9, the full
lifecycle of record 4, whose action promise rejects and whose error
handler also rejects, marks 4 handled, sinks the secondary failure,
completes 4, restores the executing list, leaves the pending queue alone
and re-arms the loop timer. -/
theorem action_failure_isolation_witness :
    (4 ∉ execIds c5State ∧ c5State.isDisposed = false) ∧
    ((runRecord c5State { id := 4, outcome := ActionOutcome.asyncFail,
                          handler := HandlerOutcome.asyncFail } true).pending
        = c5State.pending ∧
     (runRecord c5State { id := 4, outcome := ActionOutcome.asyncFail,
                          handler := HandlerOutcome.asyncFail } true).executing
        = c5State.executing ∧
     (runRecord c5State { id := 4, outcome := ActionOutcome.asyncFail,
                          handler := HandlerOutcome.asyncFail } true).started
        = c5State.started ++ [4] ∧
     (runRecord c5State { id := 4, outcome := ActionOutcome.asyncFail,
                          handler := HandlerOutcome.asyncFail } true).completed
        = c5State.completed ++ [4] ∧
     (runRecord c5State { id := 4, outcome := ActionOutcome.asyncFail,
                          handler := HandlerOutcome.asyncFail } true).handled
        = c5State.handled ++ (if actionFails ActionOutcome.asyncFail then [4] else []) ∧
     (runRecord c5State { id := 4, outcome := ActionOutcome.asyncFail,
                          handler := HandlerOutcome.asyncFail } true).sink
        = c5State.sink
            ++ (if actionFails ActionOutcome.asyncFail && handlerFails HandlerOutcome.asyncFail
                then [4] else []) ∧
     (runRecord c5State { id := 4, outcome := ActionOutcome.asyncFail,
                          handler := HandlerOutcome.asyncFail } true).isDisposed = false ∧
     (true = true →
       (runRecord c5State { id := 4, outcome := ActionOutcome.asyncFail,
                            handler := HandlerOutcome.asyncFail } true).timerArmed = true)) :=
  have hfresh : 4 ∉ execIds c5State := by decide
  have hnd : c5State.isDisposed = false := by decide
  ⟨⟨hfresh, hnd⟩, action_failure_isolation c5State
    { id := 4, outcome := ActionOutcome.asyncFail, handler := HandlerOutcome.asyncFail }
    true hfresh hnd⟩

/-!
Embedding of the setup-time validation of the debounce decorator.
Duration is the value object of duration.ts: its private constructor
rejects a negative millisecond count, and toMilliSeconds returns the
stored count (round defaults to false).  JavaScript numbers are modelled
as rationals.  The validations below run while the decorator is created
and applied, before any call of the guarded method.
-/

/-- Duration value object of duration.ts: the stored millisecond count. -/
structure Duration where
  ms : ℚ
deriving DecidableEq, Repr

/-- Private constructor of Duration: ensure(t greater or equal 0). -/
def Duration.create (ms : ℚ) : Except String Duration :=
  if 0 ≤ ms then Except.ok { ms := ms } else Except.error "ms"

def Duration.fromMilliSeconds (milliSeconds : ℚ) : Except String Duration :=
  Duration.create milliSeconds

def Duration.fromSeconds (seconds : ℚ) : Except String Duration :=
  Duration.fromMilliSeconds (seconds * 1000)

def Duration.toMilliSeconds (d : Duration) : ℚ := d.ms

/-- Validation run by the modern debounce(delay) overload when the
decorator is created: the delay must have a strictly positive millisecond
count. -/
def debounceDelayCheck (delay : Duration) : Except String Unit :=
  if delay.toMilliSeconds > 0 then Except.ok ()
  else Except.error "delay should be greater than 0ms"

/-- Validation run by createReplacementMethod when the decorator is
applied: the decoration context kind must be the string method. -/
def debounceKindCheck (kind : String) : Except String Unit :=
  if kind = "method" then Except.ok ()
  else Except.error "debounce decorator can only be used on a method"

/-- Setup of the modern decorator: the delay validation (when a delay is
configured) at decorator creation, then the kind validation at decoration
time; both run before any call of the guarded method. -/
def debounceSetup (delay : Option Duration) (kind : String) : Except String Unit :=
  match delay with
  | some d =>
    match debounceDelayCheck d with
    | Except.ok _ => debounceKindCheck kind
    | Except.error e => Except.error e
  | none => debounceKindCheck kind

/-- Setup of the legacy debounce decorator (the older implementation):
ensureHasValue().ensureIsObject() accepts every Duration instance, with no
positivity check on the millisecond count, and the returned decorator only
checks that target, propertyKey and descriptor are present. -/
def debounceLegacySetup (_delay : Duration)
    (hasTarget hasPropertyKey hasDescriptor : Bool) : Except String Unit :=
  if hasTarget && hasPropertyKey && hasDescriptor then Except.ok ()
  else Except.error "ArgumentNull"

/-- C8 counterexample: a Duration of zero milliseconds is constructible
(the Duration constructor only rejects negative counts), and the legacy
debounce decorator accepts it at setup time, contradicting the claim that
a zero delay is rejected at setup time; only the modern overload rejects
it. -/
theorem debounce_zero_delay_accepted_cex :
    Duration.fromMilliSeconds 0 = Except.ok { ms := 0 } ∧
    debounceLegacySetup { ms := 0 } true true true = Except.ok () ∧
    debounceDelayCheck { ms := 0 }
        = Except.error "delay should be greater than 0ms" := by
  refine ⟨?_, rfl, ?_⟩
  · simp [Duration.fromMilliSeconds, Duration.create]
  · simp [debounceDelayCheck, Duration.toMilliSeconds]

/-- C8 amended: the modern decorator accepts a configured delay at setup
time exactly when its millisecond count is strictly positive and the
decorated target is a method, and rejects zero and non-method targets with
configuration errors before any call; a negative delay cannot even be
constructed as a Duration; the legacy decorator carries no positivity
check and accepts any constructible Duration, including zero, whenever
target, propertyKey and descriptor are present. -/
theorem debounce_setup_validation (d : Duration) (kind : String) (q : ℚ)
    (hasTarget hasPropertyKey hasDescriptor : Bool) :
    (debounceSetup (some d) kind = Except.ok ()
        ↔ 0 < d.toMilliSeconds ∧ kind = "method") ∧
    (debounceSetup none kind = Except.ok () ↔ kind = "method") ∧
    ((∃ dq : Duration, Duration.fromMilliSeconds q = Except.ok dq) ↔ 0 ≤ q) ∧
    (debounceLegacySetup d hasTarget hasPropertyKey hasDescriptor = Except.ok ()
        ↔ hasTarget = true ∧ hasPropertyKey = true ∧ hasDescriptor = true) := by
  refine ⟨?_, ?_, ?_, ?_⟩
  · by_cases hpos : d.toMilliSeconds > 0 <;> by_cases hk : kind = "method" <;>
      simp [debounceSetup, debounceDelayCheck, debounceKindCheck, hpos, hk]
  · by_cases hk : kind = "method" <;>
      simp [debounceSetup, debounceKindCheck, hk]
  · constructor
    · rintro ⟨dq, hdq⟩
      by_cases hq : 0 ≤ q
      · exact hq
      · simp [Duration.fromMilliSeconds, Duration.create, hq] at hdq
    · intro hq
      exact ⟨{ ms := q }, by simp [Duration.fromMilliSeconds, Duration.create, hq]⟩
  · rcases Bool.eq_false_or_eq_true hasTarget with h1 | h1 <;>
      rcases Bool.eq_false_or_eq_true hasPropertyKey with h2 | h2 <;>
      rcases Bool.eq_false_or_eq_true hasDescriptor with h3 | h3 <;>
      simp [debounceLegacySetup, h1, h2, h3]

end NUtil
